import Mathlib

/-!
Shallow embedding of `src/hiring_scanner.py` (sales-hiring-scanner).

Python strings are modelled as `List Char`; the configured keyword and
bonus lists are ASCII, so Python `str.lower()` is modelled by mapping
`Char.toLower` over the characters.  Python's numeric score only ever
takes non-negative integral values (increments of 20 and 5, clamped at
100), so it is modelled as `Nat`.  Fallible external calls (HTTP
transport, JSON timestamp conversion, relative-URL join) are modelled
as explicit inputs or function parameters.
-/

/-- `str.lower()` on an ASCII string: lowercase every character. -/
def lowerStr (s : List Char) : List Char := s.map Char.toLower

/-- Python `a.startswith(p)`: `startsWith hay pre` is true when `pre`
is an initial segment of `hay`. -/
def startsWith : List Char → List Char → Bool
  | _, [] => true
  | [], _ :: _ => false
  | c :: hs, d :: ps => c = d && startsWith hs ps

/-- Python substring containment `needle in hay`. -/
def strContains : List Char → List Char → Bool
  | [], needle => needle.isEmpty
  | hay@(_ :: t), needle => startsWith hay needle || strContains t needle

/-- Python truthiness-based `a or b` on an optional string: `None` and
`""` both fall through to `b`. -/
def pyOr (a : Option (List Char)) (b : List Char) : List Char :=
  match a with
  | none => b
  | some s => if s.isEmpty then b else s

/-- Python string truthiness for `a or b` when `a` is a plain string. -/
def pyOrStr (a b : List Char) : List Char := if a.isEmpty then b else a

/-- `str.strip()`: drop leading and trailing whitespace. -/
def pyStrip (s : List Char) : List Char :=
  ((s.dropWhile Char.isWhitespace).reverse.dropWhile Char.isWhitespace).reverse

/-- `str.split(sep)` for a single-character separator; like Python, the
result always has at least one (possibly empty) part. -/
def splitOnChar (sep : Char) : List Char → List (List Char)
  | [] => [[]]
  | c :: rest =>
    let r := splitOnChar sep rest
    if c = sep then [] :: r
    else
      match r with
      | [] => [[c]]
      | h :: t => (c :: h) :: t

/-- Characters allowed in a URL scheme after the initial letter
(`urllib.parse` scheme characters). -/
def isSchemeChar (c : Char) : Bool :=
  c.isAlpha || c.isDigit || c = '+' || c = '-' || c = '.'

/-- Strip a leading `scheme:` from a URL when a valid scheme is present,
as `urllib.parse.urlsplit` does. -/
def dropScheme (url : List Char) : List Char :=
  let pre := url.takeWhile (fun c => c ≠ ':')
  if pre.length < url.length ∧ ¬ pre.isEmpty ∧
      (pre.headD 'a').isAlpha ∧ pre.all isSchemeChar then
    url.drop (pre.length + 1)
  else url

/-- `urllib.parse.urlparse(url).netloc`: present only when the text
after the scheme starts with `//`; runs to the next `/`, `?` or `#`. -/
def netlocOf (url : List Char) : List Char :=
  let rest := dropScheme url
  if startsWith rest "//".data then
    (rest.drop 2).takeWhile (fun c => c ≠ '/' ∧ c ≠ '?' ∧ c ≠ '#')
  else []

/-! ## Configuration (`ROLE_KEYWORDS` and the scorer's bonus list) -/

/-- `ROLE_KEYWORDS` from the configuration block. -/
def ROLE_KEYWORDS : List (List Char) :=
  ["Senior Sales Strategy".data,
   "Sales Strategy".data,
   "Sales Operations".data,
   "Global Sales Operations".data,
   "Revenue Operations".data,
   "RevOps".data,
   "Sales Intelligence".data,
   "Sales Insights".data,
   "Sales Insights & Analytics".data,
   "Sales Enablement".data,
   "Sales Planning & Operations".data,
   "Sales Transformation".data,
   "Go-to-Market Strategy".data,
   "GTM Strategy".data,
   "Sales Excellence".data,
   "Sales Analytics".data,
   "Market Intelligence".data]

/-- The secondary bonus-term list written inline in `heuristic_score`. -/
def BONUS_TERMS : List (List Char) :=
  ["revops".data, "revenue operations".data, "strategy".data,
   "enablement".data, "analytics".data, "intelligence".data,
   "insights".data, "market intelligence".data, "gtm".data]

/-! ## Data model -/

/-- The `JobPosting` dataclass.  The `captured_at` field default in the
source, `dt.datetime.utcnow().isoformat()`, is a Python dataclass field
default: the expression is evaluated once, when the class statement
runs, and that single string is reused for every construction that does
not pass `captured_at` explicitly (see `mkJobPostingDefaultCapture`). -/
structure JobPosting where
  title : List Char
  company : List Char
  location : List Char
  url : List Char
  source : List Char
  posted_at : Option (List Char) := none
  captured_at : List Char
  match_score : Nat := 0
deriving DecidableEq, Repr

/-- Constructing a `JobPosting` without an explicit `captured_at`.
`classDefCapturedAt` is the one string computed when the class was
defined; `nowIso` is the clock reading at the moment of this particular
construction.  Mirroring Python dataclass-default semantics, the
constructor stores `classDefCapturedAt` and never consults `nowIso`. -/
def mkJobPostingDefaultCapture (classDefCapturedAt nowIso : List Char)
    (title company location url source : List Char)
    (posted_at : Option (List Char) := none) : JobPosting :=
  { title, company, location, url, source, posted_at,
    captured_at := classDefCapturedAt, match_score := 0 }

/-! ## Board URL templates (`GH_RE`, `LEVER_RE`) -/

/-- Prefix-anchored, case-insensitive match of
`https?://<host>/([^/?#]+)/?` (the shape of `GH_RE` and `LEVER_RE`
under `re.match`): `tmplHttp`/`tmplHttps` are the two lowercase
literal prefixes; on success the captured slug keeps the original
casing of the URL. -/
def boardMatch (tmplHttp tmplHttps : List Char) (url : List Char) :
    Option (List Char) :=
  let lurl := lowerStr url
  let go (tmpl : List Char) : Option (List Char) :=
    if startsWith lurl tmpl then
      let slug := (url.drop tmpl.length).takeWhile
        (fun c => c ≠ '/' ∧ c ≠ '?' ∧ c ≠ '#')
      if slug.isEmpty then none else some slug
    else none
  match go tmplHttp with
  | some s => some s
  | none => go tmplHttps

/-- `GH_RE.match(url)`: group 1 on success. -/
def GH_match (url : List Char) : Option (List Char) :=
  boardMatch "http://boards.greenhouse.io/".data
    "https://boards.greenhouse.io/".data url

/-- `LEVER_RE.match(url)`: group 1 on success. -/
def LEVER_match (url : List Char) : Option (List Char) :=
  boardMatch "http://jobs.lever.co/".data
    "https://jobs.lever.co/".data url

/-! ## Normalizer / scorer / deduplicator -/

/-- `normalize_company_from_url`: board slug if a template matches,
else the second-to-last dot-separated label of the host, else `""`.
(The source wraps the host fallback in `try/except`; `urlparse` and
list indexing cannot fail on the guarded path, so no failure branch is
modelled.) -/
def normalize_company_from_url (url : List Char) : List Char :=
  match GH_match url with
  | some s => s
  | none =>
    match LEVER_match url with
    | some s => s
    | none =>
      let host := netlocOf url
      let parts := splitOnChar '.' host
      if 2 ≤ parts.length then parts.getD (parts.length - 2) [] else []

/-- The running sum built by `heuristic_score` before the final clamp:
+20 per matching role keyword, +5 per bonus term found in the lowered
title, +5 when the source is `greenhouse` or `lever`. -/
def rawScore (title source : List Char) : Nat :=
  let title_l := lowerStr title
  20 * (ROLE_KEYWORDS.filter (fun k => strContains title_l (lowerStr k))).length
    + 5 * (BONUS_TERMS.filter (fun b => strContains title_l b)).length
    + (if source = "greenhouse".data ∨ source = "lever".data then 5 else 0)

/-- `heuristic_score`: the running sum clamped to at most 100. -/
def heuristic_score (job : JobPosting) : Nat :=
  min (rawScore job.title job.source) 100

/-- The dedup key of `dedupe`: lowered title, lowered
company-or-URL-derived-company, lowered location. -/
def dedupKey (p : JobPosting) : List Char × List Char × List Char :=
  (lowerStr p.title,
   lowerStr (pyOrStr p.company (normalize_company_from_url p.url)),
   lowerStr p.location)

/-- Worker for `dedupe`: `seen` is the set of keys already emitted
(modelled as a list with membership, matching Python set semantics). -/
def dedupeAux (seen : List (List Char × List Char × List Char)) :
    List JobPosting → List JobPosting
  | [] => []
  | p :: rest =>
    if dedupKey p ∈ seen then dedupeAux seen rest
    else p :: dedupeAux (dedupKey p :: seen) rest

/-- `dedupe`: keep the first posting per dedup key, in input order. -/
def dedupe (posts : List JobPosting) : List JobPosting := dedupeAux [] posts

/-! ## Persistence (`ensure_db` / `upsert_jobs`) -/

/-- One row of the `jobs` table (the auto-increment id is the list
position). -/
structure DBRow where
  title : List Char
  company : List Char
  location : List Char
  url : List Char
  source : List Char
  posted_at : Option (List Char)
  captured_at : List Char
  match_score : Nat
deriving DecidableEq, Repr

/-- The row bound by the `INSERT` in `upsert_jobs` for a posting
(company backfilled from the URL when empty, as in the source's
parameter tuple). -/
def rowOf (p : JobPosting) : DBRow :=
  { title := p.title,
    company := pyOrStr p.company (normalize_company_from_url p.url),
    location := p.location, url := p.url, source := p.source,
    posted_at := p.posted_at, captured_at := p.captured_at,
    match_score := p.match_score }

/-- One `INSERT OR IGNORE` against the `url` UNIQUE constraint of the
table created by `ensure_db`: a row whose `url` is already present is
silently skipped (`rowcount = 0`); otherwise the row is appended and
`rowcount = 1`. -/
def insertOrIgnore (rows : List DBRow) (p : JobPosting) :
    List DBRow × Bool :=
  if rows.any (fun r => r.url = p.url) then (rows, false)
  else (rows ++ [rowOf p], true)

/-- `upsert_jobs`: fold the insert over the posting list, counting the
rows actually inserted. -/
def upsert_jobs (rows : List DBRow) : List JobPosting → List DBRow × Nat
  | [] => (rows, 0)
  | p :: rest =>
    let step := insertOrIgnore rows p
    let recur := upsert_jobs step.1 rest
    (recur.1, (if step.2 then 1 else 0) + recur.2)

/-! ## Parsers (`parse_greenhouse`, `parse_lever`) -/

/-- One candidate element matched by the greenhouse card selectors:
its stripped text, its `href` attribute (absent for non-anchor
elements), and the nearby location text found through the
parent/sibling search (empty when no location element exists). -/
structure GHCard where
  text : List Char
  href : Option (List Char)
  loc : List Char
deriving DecidableEq, Repr

/-- The per-card loop of `parse_greenhouse` over the already-fetched
document: `join` models `resp.request.url.join` (relative-link
resolution by the HTTP library); a card is skipped by
`if not href or not title: continue` when its text is empty or its
`href` is absent or empty. -/
def parse_greenhouse_cards (classDefCapturedAt : List Char)
    (join : List Char → List Char) (url : List Char)
    (cards : List GHCard) : List JobPosting :=
  let company := (GH_match url).getD []
  cards.filterMap fun j =>
    match j.href with
    | none => none
    | some h =>
      if h.isEmpty ∨ j.text.isEmpty then none
      else some
        { title := j.text,
          company := pyOrStr company [],
          location := j.loc,
          url := if startsWith h "http".data then h else join h,
          source := "greenhouse".data,
          posted_at := none,
          captured_at := classDefCapturedAt,
          match_score := 0 }

/-- One record of the Lever JSON listing, with every field the parser
reads modelled as optional (a missing key yields `none`). -/
structure LeverItem where
  text : Option (List Char)
  hostedUrl : Option (List Char)
  applyUrl : Option (List Char)
  categories_location : Option (List Char)
  createdAt : Option (List Char)
deriving DecidableEq, Repr

/-- The per-item loop of the Lever JSON path in `parse_lever`:
`toIso` models `dt.datetime.utcfromtimestamp(int(c)/1000).isoformat()`
(returning `none` on conversion failure); no item is ever skipped —
every missing field falls back to a default. -/
def parse_lever_items (classDefCapturedAt : List Char)
    (toIso : List Char → Option (List Char))
    (company url : List Char) (items : List LeverItem) :
    List JobPosting :=
  items.map fun item =>
    { title := pyStrip (item.text.getD []),
      company := company,
      location := pyOrStr (item.categories_location.getD []) [],
      url := pyOr item.hostedUrl (pyOr item.applyUrl url),
      source := "lever".data,
      posted_at :=
        match item.createdAt with
        | none => none
        | some c => if c.isEmpty then none else toIso c,
      captured_at := classDefCapturedAt,
      match_score := 0 }

/-! ## Fetcher (`polite_get`) -/

/-- The outcome of the underlying `client.get` call: either a response
with a status code and body, or a raised transport exception (timeout,
connection error, ...). -/
inductive Transport where
  | success (status : Nat) (body : List Char)
  | failure
deriving DecidableEq, Repr

/-- A returned HTTP response. -/
structure HttpResponse where
  status : Nat
  body : List Char
deriving DecidableEq, Repr

/-- The `_host_last_hit` map: host → time of last request. -/
def HostMap := List (List Char × Nat)

/-- Dict assignment `_host_last_hit[host] = now`. -/
def setHost (m : HostMap) (host : List Char) (now : Nat) : HostMap :=
  (host, now) :: List.filter (fun e => decide (e.1 ≠ host)) m

/-- The `host = urlparse(url).netloc` call at the top of `polite_get`:
CPython's `urlsplit` raises `ValueError("Invalid IPv6 URL")` when the
netloc contains `[` without `]` or `]` without `[`; `none` models that
raised exception. -/
def urlparse_netloc (url : List Char) : Option (List Char) :=
  let host := netlocOf url
  if (host.contains '[' && !(host.contains ']'))
      || (host.contains ']' && !(host.contains '[')) then none
  else some host

/-- `polite_get` on a raw URL, after the throttle sleep (real-time
waiting is not modelled).  The `urlparse(url).netloc` call runs before
the `try` block, so its `ValueError` on a malformed bracket URL is not
caught and propagates to the caller (`Except.error`).  Inside the
protected region: a raised transport exception makes the `except`
clause return `None` with the map untouched; on a response the map is
stamped, a 200 response is returned, and any other status yields
`None`. -/
def polite_get (st : HostMap) (url : List Char) (now : Nat)
    (t : Transport) : Except (List Char) (Option HttpResponse × HostMap) :=
  match urlparse_netloc url with
  | none => .error "Invalid IPv6 URL".data
  | some host =>
    match t with
    | .failure => .ok (none, st)
    | .success code body =>
      let st' := setHost st host now
      if code = 200 then .ok (some ⟨code, body⟩, st') else .ok (none, st')

/-! ## Orchestrator core (`run_scan` lines 442–450) -/

/-- `p.title` matches at least one configured role keyword,
case-insensitively — the filter applied in `run_scan` (and the same
test `parse_generic` applies inline). -/
def keywordMatch (title : List Char) : Bool :=
  ROLE_KEYWORDS.any fun k => strContains (lowerStr title) (lowerStr k)

/-- The filter-and-score loop of `run_scan`: keep only keyword-matching
titles, backfill an empty company from the URL, then assign the
heuristic score. -/
def filterAndScore (flat : List JobPosting) : List JobPosting :=
  (flat.filter (fun p => keywordMatch p.title)).map fun p =>
    let p1 := { p with
      company := pyOrStr p.company (normalize_company_from_url p.url) }
    { p1 with match_score := heuristic_score p1 }

/-- The posting list handed to `upsert_jobs` by `run_scan`: filtered,
scored, deduplicated. -/
def scanUnique (flat : List JobPosting) : List JobPosting :=
  dedupe (filterAndScore flat)


/-! ## Helper lemmas -/

theorem startsWith_self_append (n e : List Char) :
    startsWith (n ++ e) n = true := by
  induction n with
  | nil => cases e <;> rfl
  | cons c t ih => simp [startsWith, ih]

theorem startsWith_extend (h n e : List Char)
    (hs : startsWith h n = true) : startsWith (h ++ e) n = true := by
  induction h generalizing n with
  | nil =>
    cases n with
    | nil => cases e <;> rfl
    | cons d m => simp [startsWith] at hs
  | cons c t ih =>
    cases n with
    | nil => rfl
    | cons d m =>
      simp [startsWith] at hs ⊢
      exact ⟨hs.1, ih m hs.2⟩

theorem strContains_extend (h n e : List Char)
    (hc : strContains h n = true) : strContains (h ++ e) n = true := by
  induction h with
  | nil =>
    simp [strContains, List.isEmpty_iff] at hc
    subst hc
    cases e with
    | nil => rfl
    | cons c t => simp [strContains, startsWith]
  | cons c t ih =>
    simp only [strContains, Bool.or_eq_true] at hc ⊢
    rcases hc with hc | hc
    · exact Or.inl (startsWith_extend _ _ _ hc)
    · exact Or.inr (ih hc)

theorem strContains_middle (pre n post : List Char) :
    strContains (pre ++ n ++ post) n = true := by
  induction pre with
  | nil =>
    cases n with
    | nil =>
      cases post with
      | nil => rfl
      | cons c t => simp [strContains, startsWith]
    | cons c t =>
      simp [strContains, startsWith, startsWith_self_append]
  | cons c t ih =>
    simp only [List.cons_append, strContains, Bool.or_eq_true]
    exact Or.inr ih

theorem filter_length_mono {α : Type} (l : List α) (p q : α → Bool)
    (hpq : ∀ a, p a = true → q a = true) :
    (l.filter p).length ≤ (l.filter q).length := by
  induction l with
  | nil => simp
  | cons a t ih =>
    cases hpa : p a with
    | true =>
      have hqa := hpq a hpa
      simp [List.filter_cons, hpa, hqa]
      omega
    | false =>
      cases hqa : q a with
      | true => simp [List.filter_cons, hpa, hqa]; omega
      | false => simpa [List.filter_cons, hpa, hqa] using ih

theorem filter_length_lt {α : Type} (l : List α) (p q : α → Bool)
    (hpq : ∀ a, p a = true → q a = true) (x : α) (hx : x ∈ l)
    (hqx : q x = true) (hpx : p x = false) :
    (l.filter p).length < (l.filter q).length := by
  induction l with
  | nil => cases hx
  | cons a t ih =>
    rcases List.mem_cons.mp hx with rfl | hx'
    · have hmono := filter_length_mono t p q hpq
      simp [List.filter_cons, hpx, hqx]
      omega
    · cases hpa : p a with
      | true =>
        have hqa := hpq a hpa
        have := ih hx'
        simp [List.filter_cons, hpa, hqa]
        omega
      | false =>
        cases hqa : q a with
        | true =>
          have := ih hx'
          simp [List.filter_cons, hpa, hqa]
          omega
        | false => simpa [List.filter_cons, hpa, hqa] using ih hx'

/-- The first posting of a list (in input order) whose dedup key is
`k`. -/
def firstWithKey (k : List Char × List Char × List Char) :
    List JobPosting → Option JobPosting
  | [] => none
  | p :: rest => if dedupKey p = k then some p else firstWithKey k rest

theorem dedupeAux_sublist (seen : List (List Char × List Char × List Char))
    (l : List JobPosting) : List.Sublist (dedupeAux seen l) l := by
  induction l generalizing seen with
  | nil => simp [dedupeAux]
  | cons p rest ih =>
    simp only [dedupeAux]
    by_cases h : dedupKey p ∈ seen
    · rw [if_pos h]
      exact (ih seen).trans (List.sublist_cons_self p rest)
    · rw [if_neg h]
      exact (ih (dedupKey p :: seen)).cons₂ p

theorem dedupeAux_key_not_seen
    (seen : List (List Char × List Char × List Char))
    (l : List JobPosting) (q : JobPosting)
    (hq : q ∈ dedupeAux seen l) : dedupKey q ∉ seen := by
  induction l generalizing seen with
  | nil => simp [dedupeAux] at hq
  | cons p rest ih =>
    simp only [dedupeAux] at hq
    by_cases h : dedupKey p ∈ seen
    · rw [if_pos h] at hq
      exact ih seen hq
    · rw [if_neg h] at hq
      rcases List.mem_cons.mp hq with rfl | hq'
      · exact h
      · intro hmem
        exact ih (dedupKey p :: seen) hq' (List.mem_cons_of_mem _ hmem)

theorem dedupeAux_keys_nodup
    (seen : List (List Char × List Char × List Char))
    (l : List JobPosting) :
    ((dedupeAux seen l).map dedupKey).Nodup := by
  induction l generalizing seen with
  | nil => simp [dedupeAux]
  | cons p rest ih =>
    simp only [dedupeAux]
    by_cases h : dedupKey p ∈ seen
    · rw [if_pos h]; exact ih seen
    · rw [if_neg h]
      simp only [List.map_cons, List.nodup_cons]
      refine ⟨?_, ih (dedupKey p :: seen)⟩
      intro hmem
      rcases List.mem_map.mp hmem with ⟨q, hq, hkey⟩
      exact dedupeAux_key_not_seen _ _ q hq (hkey ▸ List.mem_cons_self _ _)

theorem firstWithKey_some {l : List JobPosting} {p : JobPosting}
    (hp : p ∈ l) : ∃ q, firstWithKey (dedupKey p) l = some q := by
  induction l with
  | nil => cases hp
  | cons a rest ih =>
    by_cases hkey : dedupKey a = dedupKey p
    · exact ⟨a, by simp [firstWithKey, hkey]⟩
    · have hp' : p ∈ rest := by
        rcases List.mem_cons.mp hp with rfl | hp'
        · exact absurd rfl hkey
        · exact hp'
      rcases ih hp' with ⟨q, hq⟩
      exact ⟨q, by simp [firstWithKey, hkey, hq]⟩

theorem firstWithKey_key {l : List JobPosting} {k} {q : JobPosting}
    (h : firstWithKey k l = some q) : dedupKey q = k := by
  induction l with
  | nil => simp [firstWithKey] at h
  | cons a rest ih =>
    by_cases hkey : dedupKey a = k
    · simp [firstWithKey, hkey] at h
      subst h
      exact hkey
    · simp [firstWithKey, hkey] at h
      exact ih h

theorem dedupeAux_first_mem
    (l : List JobPosting) (seen : List (List Char × List Char × List Char))
    (p q : JobPosting) (hp : p ∈ l) (hseen : dedupKey p ∉ seen)
    (hfind : firstWithKey (dedupKey p) l = some q) :
    q ∈ dedupeAux seen l := by
  induction l generalizing seen with
  | nil => cases hp
  | cons a rest ih =>
    by_cases hkey : dedupKey a = dedupKey p
    · simp only [firstWithKey, if_pos hkey] at hfind
      injection hfind with heq
      subst heq
      have hnot : dedupKey a ∉ seen := fun hm => hseen (hkey ▸ hm)
      simp only [dedupeAux, if_neg hnot]
      exact List.mem_cons_self _ _
    · simp only [firstWithKey, if_neg hkey] at hfind
      have hp' : p ∈ rest := by
        rcases List.mem_cons.mp hp with rfl | hp'
        · exact absurd rfl hkey
        · exact hp'
      simp only [dedupeAux]
      by_cases h : dedupKey a ∈ seen
      · rw [if_pos h]
        exact ih seen hp' hseen hfind
      · rw [if_neg h]
        have hseen' : dedupKey p ∉ dedupKey a :: seen := by
          intro hmem
          rcases List.mem_cons.mp hmem with heq | hmem'
          · exact hkey heq.symm
          · exact hseen hmem'
        exact List.mem_cons_of_mem _ (ih (dedupKey a :: seen) hp' hseen' hfind)

theorem any_url_iff (rows : List DBRow) (u : List Char) :
    (rows.any (fun r => r.url = u)) = true ↔ u ∈ rows.map DBRow.url := by
  simp only [List.any_eq_true, List.mem_map, decide_eq_true_eq]

theorem insertOrIgnore_url_mem (rows : List DBRow) (p : JobPosting) :
    p.url ∈ (insertOrIgnore rows p).1.map DBRow.url := by
  unfold insertOrIgnore
  by_cases h : (rows.any (fun r => r.url = p.url)) = true
  · rw [if_pos h]
    exact (any_url_iff rows p.url).mp h
  · rw [if_neg h]
    simp [rowOf]

theorem insertOrIgnore_url_monotone (rows : List DBRow) (p : JobPosting)
    (u : List Char) (hu : u ∈ rows.map DBRow.url) :
    u ∈ (insertOrIgnore rows p).1.map DBRow.url := by
  unfold insertOrIgnore
  by_cases h : (rows.any (fun r => r.url = p.url)) = true
  · rw [if_pos h]; exact hu
  · rw [if_neg h]; simp only [List.map_append]; exact List.mem_append_left _ hu

theorem upsert_url_monotone (posts : List JobPosting) (rows : List DBRow)
    (u : List Char) (hu : u ∈ rows.map DBRow.url) :
    u ∈ (upsert_jobs rows posts).1.map DBRow.url := by
  induction posts generalizing rows with
  | nil => exact hu
  | cons p rest ih =>
    simp only [upsert_jobs]
    exact ih _ (insertOrIgnore_url_monotone rows p u hu)

theorem upsert_mem_url (posts : List JobPosting) (rows : List DBRow)
    (p : JobPosting) (hp : p ∈ posts) :
    p.url ∈ (upsert_jobs rows posts).1.map DBRow.url := by
  induction posts generalizing rows with
  | nil => cases hp
  | cons a rest ih =>
    simp only [upsert_jobs]
    rcases List.mem_cons.mp hp with rfl | hp'
    · exact upsert_url_monotone rest _ _ (insertOrIgnore_url_mem rows p)
    · exact ih _ hp'

theorem upsert_rows_grow (posts : List JobPosting) (rows : List DBRow) :
    List.IsPrefix rows (upsert_jobs rows posts).1 := by
  induction posts generalizing rows with
  | nil => exact List.prefix_rfl
  | cons p rest ih =>
    simp only [upsert_jobs]
    refine List.IsPrefix.trans ?_ (ih (insertOrIgnore rows p).1)
    unfold insertOrIgnore
    by_cases h : (rows.any (fun r => r.url = p.url)) = true
    · rw [if_pos h]
    · rw [if_neg h]; exact List.prefix_append rows [rowOf p]

theorem upsert_nodup_urls (posts : List JobPosting) (rows : List DBRow)
    (h : (rows.map DBRow.url).Nodup) :
    ((upsert_jobs rows posts).1.map DBRow.url).Nodup := by
  induction posts generalizing rows with
  | nil => exact h
  | cons p rest ih =>
    simp only [upsert_jobs]
    refine ih _ ?_
    unfold insertOrIgnore
    by_cases hmem : (rows.any (fun r => r.url = p.url)) = true
    · rw [if_pos hmem]; exact h
    · rw [if_neg hmem]
      have hnot : p.url ∉ rows.map DBRow.url :=
        fun hm => hmem ((any_url_iff rows p.url).mpr hm)
      simp [List.nodup_append, h, rowOf]
      intro r hr he
      exact hnot (he ▸ List.mem_map_of_mem DBRow.url hr)

theorem upsert_all_present (posts : List JobPosting) (rows : List DBRow)
    (h : ∀ p ∈ posts, p.url ∈ rows.map DBRow.url) :
    upsert_jobs rows posts = (rows, 0) := by
  induction posts with
  | nil => rfl
  | cons p rest ih =>
    have hstep : insertOrIgnore rows p = (rows, false) := by
      unfold insertOrIgnore
      rw [if_pos ((any_url_iff rows p.url).mpr (h p (List.mem_cons_self _ _)))]
    simp only [upsert_jobs, hstep]
    rw [ih (fun q hq => h q (List.mem_cons_of_mem _ hq))]
    simp

theorem bonus_terms_lower (b : List Char) (hb : b ∈ BONUS_TERMS) :
    lowerStr b = b := by
  simp [BONUS_TERMS] at hb
  rcases hb with rfl | rfl | rfl | rfl | rfl | rfl | rfl | rfl | rfl <;> decide

theorem lowerStr_append_bonus (title b : List Char) (hlb : lowerStr b = b) :
    lowerStr (title ++ ' ' :: b) = lowerStr title ++ ' ' :: b := by
  simp only [lowerStr, List.map_append, List.map_cons]
  rw [show Char.toLower ' ' = ' ' from by decide]
  rw [show List.map Char.toLower b = b from hlb]

theorem rawScore_append_bonus (title source b : List Char)
    (hb : b ∈ BONUS_TERMS) (hnew : strContains (lowerStr title) b = false) :
    rawScore title source + 5 ≤ rawScore (title ++ ' ' :: b) source := by
  have hlb := bonus_terms_lower b hb
  have hsplit := lowerStr_append_bonus title b hlb
  have hkw : (ROLE_KEYWORDS.filter
        (fun k => strContains (lowerStr title) (lowerStr k))).length
      ≤ (ROLE_KEYWORDS.filter
        (fun k => strContains (lowerStr (title ++ ' ' :: b)) (lowerStr k))).length := by
    refine filter_length_mono _ _ _ (fun k hk => ?_)
    rw [hsplit]
    exact strContains_extend _ _ _ hk
  have hqb : strContains (lowerStr (title ++ ' ' :: b)) b = true := by
    rw [hsplit]
    have h := strContains_middle (lowerStr title ++ [' ']) b []
    simpa using h
  have hbs : (BONUS_TERMS.filter (fun x => strContains (lowerStr title) x)).length
      < (BONUS_TERMS.filter
        (fun x => strContains (lowerStr (title ++ ' ' :: b)) x)).length := by
    refine filter_length_lt _ _ _ (fun x hx => ?_) b hb hqb hnew
    rw [hsplit]
    exact strContains_extend _ _ _ hx
  simp only [rawScore]
  by_cases hsrc : source = "greenhouse".data ∨ source = "lever".data
  · rw [if_pos hsrc]; omega
  · rw [if_neg hsrc]; omega

/-! ## Example postings used to instantiate the general theorems -/

/-- A greenhouse-board posting with an empty company field. -/
def exGH : JobPosting :=
  { title := "Sales Operations".data, company := [], location := [],
    url := "https://boards.greenhouse.io/acme/".data,
    source := "greenhouse".data, captured_at := [] }

/-- A lever-board posting with the same (title, company, location)
as `exGH` but a different URL and source. -/
def exLever : JobPosting :=
  { title := "Sales Operations".data, company := [], location := [],
    url := "https://jobs.lever.co/zeta/".data,
    source := "lever".data, captured_at := [] }

/-- A posting with a non-empty company, from a generic page. -/
def exGen : JobPosting :=
  { title := "Sales Operations".data, company := "acme".data, location := [],
    url := "https://a.example/job".data,
    source := "generic".data, captured_at := [] }

/-- Same dedup key as `exGen` up to case, different URL and source. -/
def exGenCaps : JobPosting :=
  { title := "SALES OPERATIONS".data, company := "ACME".data, location := [],
    url := "https://b.example/other".data,
    source := "lever".data, captured_at := [] }

/-- A posting whose title matches six role keywords, so its raw score
exceeds the 100 cap. -/
def exBig : JobPosting :=
  { title := ("Senior Sales Strategy Sales Operations Revenue Operations "
      ++ "Sales Intelligence Sales Enablement").data,
    company := [], location := [], url := [],
    source := "greenhouse".data, captured_at := [] }

/-! ## Claims -/

/-- C1: the spec says `captured_at` defaults to the time of object
construction, so two postings constructed at different times should
receive different values.  In the code the dataclass default is
evaluated once, at class-definition time: two postings constructed at
distinct times share one `captured_at`, equal to neither construction
time.  This theorem evaluates the constructor model at such a pair of
construction times. -/
theorem C1_captured_at_shared_default :
    (mkJobPostingDefaultCapture "2024-01-01T00:00:00".data
        "2024-01-02T10:30:00".data "Sales Operations Lead".data
        "acme".data [] "https://a.example/1".data "generic".data).captured_at
      = (mkJobPostingDefaultCapture "2024-01-01T00:00:00".data
        "2024-01-03T19:45:00".data "RevOps Analyst".data
        "beta".data [] "https://b.example/2".data "generic".data).captured_at
    ∧ "2024-01-02T10:30:00".data ≠ "2024-01-03T19:45:00".data
    ∧ (mkJobPostingDefaultCapture "2024-01-01T00:00:00".data
        "2024-01-02T10:30:00".data "Sales Operations Lead".data
        "acme".data [] "https://a.example/1".data "generic".data).captured_at
      ≠ "2024-01-02T10:30:00".data :=
  ⟨rfl, by decide, by decide⟩

/-- C2 counterexample: two postings with identical (title, company,
location) — company empty in both — but different board URLs survive
`dedupe` as two records, because the empty company is backfilled from
each URL before keying.  The claim "regardless of their url or source
values" fails here. -/
theorem C2_counterexample : (dedupe [exGH, exLever]).length = 2 := by decide

/-- C2 (amended): the dedup key is (title, company-or-URL-derived
company, location), lowercased.  `dedupe` returns a sublist of its
input (so input order is preserved), emits at most one posting per
key, and for every input posting the first input posting with its key
is in the output. -/
theorem C2_dedupe_first_per_key (posts : List JobPosting) (p : JobPosting)
    (hp : p ∈ posts) :
    List.Sublist (dedupe posts) posts
    ∧ ((dedupe posts).map dedupKey).Nodup
    ∧ ∃ q, firstWithKey (dedupKey p) posts = some q
        ∧ q ∈ dedupe posts ∧ dedupKey q = dedupKey p := by
  refine ⟨dedupeAux_sublist [] posts, dedupeAux_keys_nodup [] posts, ?_⟩
  rcases firstWithKey_some hp with ⟨q, hq⟩
  exact ⟨q, hq, dedupeAux_first_mem posts [] p q hp (by simp) hq,
    firstWithKey_key hq⟩

/-- C2 witness: `exGen` and `exGenCaps` share a dedup key up to case;
dedupe keeps exactly the first of them. -/
theorem C2_dedupe_first_per_key_witness :
    List.Sublist (dedupe [exGen, exGenCaps]) [exGen, exGenCaps]
    ∧ ((dedupe [exGen, exGenCaps]).map dedupKey).Nodup
    ∧ ∃ q, firstWithKey (dedupKey exGenCaps) [exGen, exGenCaps] = some q
        ∧ q ∈ dedupe [exGen, exGenCaps] ∧ dedupKey q = dedupKey exGenCaps :=
  C2_dedupe_first_per_key [exGen, exGenCaps] exGenCaps (by decide)

/-- C3: for every posting the score is in [0, 100], and whenever the
running sum exceeds 100 the clamp makes the score exactly 100. -/
theorem C3_score_clamped (job : JobPosting) :
    0 ≤ heuristic_score job ∧ heuristic_score job ≤ 100
    ∧ (100 < rawScore job.title job.source → heuristic_score job = 100) := by
  refine ⟨Nat.zero_le _, Nat.min_le_right _ _, fun h => ?_⟩
  simp only [heuristic_score]
  omega

/-- C3 witness: `exBig` has a raw sum above 100 and a clamped score of
exactly 100. -/
theorem C3_score_clamped_witness :
    100 < rawScore exBig.title exBig.source ∧ heuristic_score exBig = 100 :=
  ⟨by decide, (C3_score_clamped exBig).2.2 (by decide)⟩

/-- C10: every score is a multiple of 5 lying in {0, 5, ..., 100}:
each increment is +20 or +5 and the cap 100 is itself a multiple
of 5. -/
theorem C10_score_multiple_of_five (job : JobPosting) :
    5 ∣ heuristic_score job ∧ heuristic_score job ≤ 100 := by
  constructor
  · have hdvd : 5 ∣ rawScore job.title job.source := by
      simp only [rawScore]
      by_cases h : job.source = "greenhouse".data ∨ job.source = "lever".data
      · rw [if_pos h]; omega
      · rw [if_neg h]; omega
    simp only [heuristic_score]
    omega
  · exact Nat.min_le_right _ _

/-- C4 counterexample: adding a second occurrence of the bonus term
"strategy" to the title "Sales Strategy" leaves the score unchanged at
25, well below the 100 cap: bonus scoring is presence-based, not
occurrence-counting, so the claim's strict increase fails. -/
theorem C4_counterexample :
    "strategy".data ∈ BONUS_TERMS
    ∧ heuristic_score
        { title := "Sales Strategy strategy".data, company := [],
          location := [], url := [], source := "generic".data,
          captured_at := [] }
      = heuristic_score
        { title := "Sales Strategy".data, company := [], location := [],
          url := [], source := "generic".data, captured_at := [] }
    ∧ heuristic_score
        { title := "Sales Strategy".data, company := [], location := [],
          url := [], source := "generic".data, captured_at := [] } < 100 :=
  ⟨by decide, by decide, by decide⟩

/-- C4 (amended): appending an occurrence of a bonus term that does
not already occur (case-insensitively) in the title strictly increases
the score when the original score is below the 100 cap, and leaves it
at 100 when already capped. -/
theorem C4_bonus_monotonicity (job : JobPosting) (b : List Char)
    (hb : b ∈ BONUS_TERMS)
    (hnew : strContains (lowerStr job.title) b = false) :
    (heuristic_score job < 100 →
      heuristic_score job
        < heuristic_score { job with title := job.title ++ ' ' :: b })
    ∧ (heuristic_score job = 100 →
      heuristic_score { job with title := job.title ++ ' ' :: b } = 100) := by
  have hraw := rawScore_append_bonus job.title job.source b hb hnew
  have hmod : rawScore ({ job with title := job.title ++ ' ' :: b }).title
      ({ job with title := job.title ++ ' ' :: b }).source
      = rawScore (job.title ++ ' ' :: b) job.source := rfl
  constructor
  · intro hlt
    simp only [heuristic_score, hmod] at *
    omega
  · intro heq
    simp only [heuristic_score, hmod] at *
    omega

/-- C4 witness: appending the fresh bonus term "gtm" to the title
"Sales Operations" raises the score from 20 to 25. -/
theorem C4_bonus_monotonicity_witness :
    heuristic_score exGen
      < heuristic_score { exGen with title := exGen.title ++ ' ' :: "gtm".data } :=
  (C4_bonus_monotonicity exGen "gtm".data (by decide) (by decide)).1 (by decide)

/-- C5: every posting that reaches the list handed to the persistence
step (`scanUnique`, i.e. filter → normalize/score → dedupe) has a
title matching at least one configured role keyword; a posting whose
title matches none is filtered out before dedupe and insert. -/
theorem C5_keyword_gate (flat : List JobPosting) (p : JobPosting)
    (hp : p ∈ scanUnique flat) : keywordMatch p.title = true := by
  simp only [scanUnique, dedupe] at hp
  have hmem : p ∈ filterAndScore flat :=
    (dedupeAux_sublist [] (filterAndScore flat)).subset hp
  simp only [filterAndScore] at hmem
  rcases List.mem_map.mp hmem with ⟨q, hq, rfl⟩
  exact (List.mem_filter.mp hq).2

/-- C5 witness: the keyword-matching posting `exGen` survives to the
persistence input (with its score assigned), and its title matches. -/
theorem C5_keyword_gate_witness : keywordMatch "Sales Operations".data = true :=
  C5_keyword_gate [exGen] { exGen with match_score := 20 } (by decide)

/-- C6: running the upsert twice with the same list contributes zero
inserts the second time and leaves the table unchanged; pre-existing
rows are never modified (the old table is a prefix of the new one);
URL uniqueness is preserved, so each URL is inserted at most once; and
inserting an already-present URL is a silent no-op. -/
theorem C6_upsert_idempotent (rows : List DBRow) (posts : List JobPosting) :
    upsert_jobs (upsert_jobs rows posts).1 posts
      = ((upsert_jobs rows posts).1, 0)
    ∧ List.IsPrefix rows (upsert_jobs rows posts).1
    ∧ ((rows.map DBRow.url).Nodup →
        ((upsert_jobs rows posts).1.map DBRow.url).Nodup)
    ∧ ∀ p : JobPosting, p.url ∈ rows.map DBRow.url →
        insertOrIgnore rows p = (rows, false) := by
  refine ⟨upsert_all_present posts _
      (fun p hp => upsert_mem_url posts rows p hp),
    upsert_rows_grow posts rows,
    fun h => upsert_nodup_urls posts rows h,
    fun p hp => ?_⟩
  unfold insertOrIgnore
  rw [if_pos ((any_url_iff rows p.url).mpr hp)]

/-- C6 witness: starting from an empty table, upserting `[exGen]`
twice inserts once then zero times, keeps URLs unique, and re-insert
of the present URL is a no-op. -/
theorem C6_upsert_idempotent_witness :
    upsert_jobs (upsert_jobs [] [exGen]).1 [exGen]
      = ((upsert_jobs [] [exGen]).1, 0)
    ∧ ((upsert_jobs [] [exGen]).1.map DBRow.url).Nodup
    ∧ insertOrIgnore (upsert_jobs [] [exGen]).1 exGen
      = ((upsert_jobs [] [exGen]).1, false) :=
  ⟨(C6_upsert_idempotent [] [exGen]).1,
   (C6_upsert_idempotent [] [exGen]).2.2.1 (by decide),
   (C6_upsert_idempotent (upsert_jobs [] [exGen]).1 [exGen]).2.2.2 exGen
     (by decide)⟩

/-- C7 counterexample: a greenhouse card whose text is present but
whose `href` is absent is skipped (`if not href or not title:
continue`), so "a candidate is skipped only when both its title and
its URL are absent" fails — absence of the link alone causes the
skip. -/
theorem C7_counterexample :
    parse_greenhouse_cards [] (fun h => h)
        "https://boards.greenhouse.io/acme/".data
        [{ text := "Sales Operations Manager".data, href := none, loc := [] }]
      = []
    ∧ ("Sales Operations Manager".data).isEmpty = false :=
  ⟨rfl, by decide⟩

/-- C7 (amended): in the Lever JSON parser no candidate is ever
skipped — every missing field falls back to a default (empty title,
input URL, empty location, no timestamp); in the greenhouse parser a
card is kept exactly when its text is non-empty and its `href` is
present and non-empty, so a card missing just its link is skipped. -/
theorem C7_parser_defaults (cap : List Char)
    (toIso : List Char → Option (List Char)) (company url : List Char)
    (items : List LeverItem) (join : List Char → List Char)
    (gurl : List Char) (cards : List GHCard) :
    (parse_lever_items cap toIso company url items).length = items.length
    ∧ parse_lever_items cap toIso company url
        [{ text := none, hostedUrl := none, applyUrl := none,
           categories_location := none, createdAt := none }]
      = [{ title := [], company := company, location := [], url := url,
           source := "lever".data, posted_at := none, captured_at := cap,
           match_score := 0 }]
    ∧ (parse_greenhouse_cards cap join gurl cards).length
      = (cards.filter (fun j => !j.text.isEmpty &&
          (match j.href with
           | none => false
           | some h => !h.isEmpty))).length := by
  refine ⟨List.length_map _ _, rfl, ?_⟩
  simp only [parse_greenhouse_cards]
  induction cards with
  | nil => rfl
  | cons j rest ih =>
    simp only [List.filterMap_cons, List.filter_cons]
    rcases j with ⟨text, href, loc⟩
    cases href with
    | none => simpa using ih
    | some h =>
      by_cases hh : h.isEmpty = true
      · by_cases ht : text.isEmpty = true <;> simpa [hh, ht] using ih
      · by_cases ht : text.isEmpty = true
        · simpa [hh, ht] using ih
        · simpa [hh, ht] using ih

/-- The company-derivation rule as the spec phrases it, stated
independently of the code's control flow: the board-template slug when
a known template matches, otherwise the second-to-last dot-separated
label of the URL's host when the host has at least two labels,
otherwise the empty string. -/
def companyRuleSpec (url : List Char) : List Char :=
  match GH_match url, LEVER_match url with
  | some slug, _ => slug
  | none, some slug => slug
  | none, none =>
    let labels := splitOnChar '.' (netlocOf url)
    if h : 2 ≤ labels.length then labels[labels.length - 2] else []

/-- C8: the normalizer's URL-derived company agrees everywhere with
the spec's rule, and on the spec's own example a greenhouse URL with
path slug "acme-co" yields company "acme-co"; a plain host yields its
second-to-last label; an unparseable URL yields the empty string. -/
theorem C8_company_backfill :
    (∀ url, normalize_company_from_url url = companyRuleSpec url)
    ∧ normalize_company_from_url
        "https://boards.greenhouse.io/acme-co/".data = "acme-co".data
    ∧ normalize_company_from_url
        "https://jobs.example.com/123".data = "example".data
    ∧ normalize_company_from_url "nohost".data = [] := by
  refine ⟨fun url => ?_, by decide, by decide, by decide⟩
  unfold normalize_company_from_url companyRuleSpec
  rcases hg : GH_match url with _ | s <;>
    rcases hl : LEVER_match url with _ | t
  · by_cases h : 2 ≤ (splitOnChar '.' (netlocOf url)).length
    · rw [if_pos h, dif_pos h]
      exact List.getD_eq_getElem _ _ (by omega)
    · rw [if_neg h, dif_neg h]
  · rfl
  · rfl
  · rfl

/-- C9 counterexample: on the malformed bracket URL
`http://[a.b/x` the `urlparse(url).netloc` call at the top of
`polite_get` raises `ValueError("Invalid IPv6 URL")` before the `try`
block is entered, so the exception propagates to the caller even
though the transport itself would have returned a 200 response — the
claim's "never propagates an exception" fails at this input. -/
theorem C9_counterexample :
    polite_get [] "http://[a.b/x".data 0 (.success 200 [])
      = .error "Invalid IPv6 URL".data := by rfl

/-- C9 (amended): for every URL whose netloc passes urlparse's bracket
validation, the fetch returns a uniform two-outcome result — either a
200 response or the `None` sentinel: a raised transport exception
yields the sentinel with the throttle map untouched, and a non-200
status yields the sentinel; no exception escapes the `try` block.  On
a malformed bracket URL, however, urlparse's `ValueError` is raised
outside the `try` block and propagates to the caller for every
transport outcome. -/
theorem C9_fetch_two_outcomes (st : HostMap) (url : List Char) (now : Nat) :
    (∀ host, urlparse_netloc url = some host →
      (∀ t : Transport, ∃ res st2, polite_get st url now t = .ok (res, st2)
          ∧ (res = none ∨ ∃ body, res = some ⟨200, body⟩))
      ∧ polite_get st url now .failure = .ok (none, st)
      ∧ (∀ code body, polite_get st url now (.success code body)
          = .ok ((if code = 200 then some ⟨code, body⟩ else none),
              setHost st host now)))
    ∧ (urlparse_netloc url = none →
        ∀ t : Transport, polite_get st url now t
          = .error "Invalid IPv6 URL".data) := by
  constructor
  · intro host hhost
    refine ⟨fun t => ?_, ?_, fun code body => ?_⟩
    · cases t with
      | failure => exact ⟨none, st, by simp [polite_get, hhost], Or.inl rfl⟩
      | success code body =>
        by_cases h : code = 200
        · subst h
          exact ⟨some ⟨200, body⟩, setHost st host now,
            by simp [polite_get, hhost], Or.inr ⟨body, rfl⟩⟩
        · exact ⟨none, setHost st host now,
            by simp [polite_get, hhost, h], Or.inl rfl⟩
    · simp [polite_get, hhost]
    · by_cases h : code = 200
      · simp [polite_get, hhost, h]
      · simp [polite_get, hhost, h]
  · intro hnone t
    cases t <;> simp [polite_get, hnone]

/-- C9 witness: a well-formed URL exercises the sentinel outcome, and
a malformed bracket URL exercises the propagated exception. -/
theorem C9_fetch_two_outcomes_witness :
    polite_get [] "https://a.example/x".data 0 .failure = .ok (none, [])
    ∧ polite_get [] "http://[a.b/x".data 0 .failure
      = .error "Invalid IPv6 URL".data :=
  ⟨((C9_fetch_two_outcomes [] "https://a.example/x".data 0).1
      "a.example".data (by decide)).2.1,
   (C9_fetch_two_outcomes [] "http://[a.b/x".data 0).2 (by decide) .failure⟩
